import Mathlib

/-!
Verification of the numeric core of `src/main.rs` (Difference-of-Gaussians
image filter).

The Rust core is embedded shallowly:

* `f32` arithmetic is modelled by real arithmetic (`ℝ`);
* the Rust cast `f32 as i32` (truncation toward zero) is `f32_to_i32`;
* the Rust cast `f32 as u8` appears only applied to values already clamped
  into `[0, 255]`, where it agrees with `fun x => (Int.floor x).toNat`;
* an image is its dimensions together with a pixel-lookup function; the
  coordinates actually read by the code are always checked in bounds first,
  exactly as the source does;
* the per-pixel accumulation loop of `difference_of_gaussian` becomes a
  finite sum over the integer window `[-radius, radius) × [-radius, radius)`,
  with the source's `continue` on out-of-bounds neighbours kept as an
  explicit zero branch.

The file-IO driver (`main`, `open_image`, image stacking) and the unused
`draw_point` helper are outside the numeric core and are not modelled.
-/

namespace SIFT

/-- An 8-bit RGBA pixel, the `Rgba<u8>` of the source (channel values are
naturals, in range `[0, 255]` whenever produced by the code). -/
structure Rgba where
  r : ℕ
  g : ℕ
  b : ℕ
  a : ℕ
  deriving DecidableEq

/-- A raster image: dimensions plus pixel lookup.  `get_pixel`/`put_pixel`
of the source are only ever used at coordinates `x < width`, `y < height`;
the lookup function is total for convenience of the embedding. -/
structure Image where
  width : ℕ
  height : ℕ
  pix : ℕ → ℕ → Rgba

/-- Source `gaussian_filter`: the isotropic 2D Gaussian density
`exp(-(x*x + y*y) / (2*sigma*sigma)) / (2*pi*sigma*sigma)`. -/
noncomputable def gaussian_filter (x y sigma : ℝ) : ℝ :=
  let a := 2 * Real.pi * sigma * sigma
  let b := 2 * sigma * sigma
  Real.exp (-(x * x + y * y) / b) / a

/-- Source `clamp`. -/
noncomputable def clamp (n low high : ℝ) : ℝ :=
  if n < low then low else if n > high then high else n

/-- Source `color_to_vector`: divide the first three 8-bit channels by 255. -/
noncomputable def color_to_vector (color : Rgba) : ℝ × ℝ × ℝ :=
  ((color.r : ℝ) / 255, (color.g : ℝ) / 255, (color.b : ℝ) / 255)

/-- Source `vector_to_color`: clamp each channel to `[0,1]`, scale by 255 and
truncate to an 8-bit integer; the alpha channel is the constant 255.  The
Rust `as u8` cast saturates, but its operand here is already in `[0, 255]`
by the clamp, where saturation never fires and the cast is plain
floor-truncation. -/
noncomputable def vector_to_color (v : ℝ × ℝ × ℝ) : Rgba :=
  ⟨(⌊clamp v.1 0 1 * 255⌋).toNat,
   (⌊clamp v.2.1 0 1 * 255⌋).toNat,
   (⌊clamp v.2.2 0 1 * 255⌋).toNat,
   255⟩

/-- The Rust cast `f32 as i32`: truncation toward zero.  (The cast also
saturates at the `i32` range ends; the operands appearing in the source are
squares of small parameters, far from those ends.) -/
noncomputable def f32_to_i32 (x : ℝ) : ℤ :=
  if 0 ≤ x then ⌊x⌋ else ⌈x⌉

/-- The window half-extent computed by `difference_of_gaussian`:
`max((sigma * sigma) as i32, ((k * sigma) * (k * sigma)) as i32)`. -/
noncomputable def dogRadius (sigma k : ℝ) : ℤ :=
  max (f32_to_i32 (sigma * sigma)) (f32_to_i32 ((k * sigma) * (k * sigma)))

/-- The source's skip condition for a neighbour offset `(i, j)` of pixel
`(x, y)`:
`x + i < 0 || y + j < 0 || x + i >= width || y + j >= height`. -/
def outOfBounds (img : Image) (x y : ℕ) (i j : ℤ) : Bool :=
  decide ((x : ℤ) + i < 0) || decide ((y : ℤ) + j < 0) ||
    decide ((img.width : ℤ) ≤ (x : ℤ) + i) ||
    decide ((img.height : ℤ) ≤ (y : ℤ) + j)

/-- The accumulated color for output pixel `(x, y)`: the inner double loop of
`difference_of_gaussian`.  Each in-bounds neighbour contributes its color
vector scaled by `gaussian_filter(i, j, k*sigma) - gaussian_filter(i, j, sigma)`;
out-of-bounds neighbours are skipped (`continue`). -/
noncomputable def dogColor (img : Image) (sigma k : ℝ) (x y : ℕ) : ℝ × ℝ × ℝ :=
  ∑ i in Finset.Ico (-(dogRadius sigma k)) (dogRadius sigma k),
    ∑ j in Finset.Ico (-(dogRadius sigma k)) (dogRadius sigma k),
      if outOfBounds img x y i j then 0
      else (gaussian_filter (i : ℝ) (j : ℝ) (k * sigma) -
              gaussian_filter (i : ℝ) (j : ℝ) sigma) •
        color_to_vector (img.pix ((x : ℤ) + i).toNat ((y : ℤ) + j).toNat)

/-- Source `difference_of_gaussian`: a fresh image of the same dimensions
whose every in-range pixel is the clamped 8-bit image of `dogColor`.
(Out-of-range coordinates of the lookup function carry the `new_rgb8`
default, opaque black; the source never reads them.) -/
noncomputable def difference_of_gaussian (img : Image) (sigma k : ℝ) : Image :=
  ⟨img.width, img.height, fun x y =>
    if x < img.width ∧ y < img.height then
      vector_to_color (dogColor img sigma k x y)
    else ⟨0, 0, 0, 255⟩⟩

/-- A 1×1 pure-white test image. -/
def unitWhite : Image := ⟨1, 1, fun _ _ => ⟨255, 255, 255, 255⟩⟩

/-- A 3×3 pure-white test image. -/
def white3 : Image := ⟨3, 3, fun _ _ => ⟨255, 255, 255, 255⟩⟩

/-- The net difference-of-weights the loop accumulates at pixel `(x, y)`:
the scalar that `dogColor` multiplies into the (constant) color vector when
the input image is uniform. -/
noncomputable def dogWeight (img : Image) (sigma k : ℝ) (x y : ℕ) : ℝ :=
  ∑ i in Finset.Ico (-(dogRadius sigma k)) (dogRadius sigma k),
    ∑ j in Finset.Ico (-(dogRadius sigma k)) (dogRadius sigma k),
      if outOfBounds img x y i j then 0
      else gaussian_filter (i : ℝ) (j : ℝ) (k * sigma) -
        gaussian_filter (i : ℝ) (j : ℝ) sigma

/-- The raw (unquantized) single-Gaussian accumulation at pixel `(x, y)`
over an explicitly given window half-extent `r`, with the source's
out-of-bounds skip. -/
noncomputable def blurAccum (img : Image) (sigma : ℝ) (r : ℤ) (x y : ℕ) :
    ℝ × ℝ × ℝ :=
  ∑ i in Finset.Ico (-r) r,
    ∑ j in Finset.Ico (-r) r,
      if outOfBounds img x y i j then 0
      else gaussian_filter (i : ℝ) (j : ℝ) sigma •
        color_to_vector (img.pix ((x : ℤ) + i).toNat ((y : ℤ) + j).toNat)

/-- The in-bounds subset of the convolution window for output pixel
`(x, y)`: exactly the offsets the source's loop does not `continue` past. -/
def contributingOffsets (img : Image) (x y : ℕ) (r : ℤ) : Finset (ℤ × ℤ) :=
  (Finset.Ico (-r) r ×ˢ Finset.Ico (-r) r).filter
    (fun p => outOfBounds img x y p.1 p.2 = false)

/-- Modelled from the spec (§4.2): the kernel radius policy of the two-pass
pipeline; the spec's suggested principled choice `ceil(3·sigma)` (the spec
leaves the exact multiple open but mandates a radius derived from the
Gaussian's own support, unlike the source's shared `max` of truncated
squares). -/
noncomputable def specKernelRadius (sigma : ℝ) : ℤ := ⌈3 * sigma⌉

/-- Modelled from the spec (§4.2 Convolver): `blur(image, sigma)` — one
Gaussian accumulated over its own correctly sized window, quantized to
8-bit per pixel through the clamping ColorMapper. -/
noncomputable def specBlur (img : Image) (sigma : ℝ) : Image :=
  ⟨img.width, img.height, fun x y =>
    if x < img.width ∧ y < img.height then
      vector_to_color (blurAccum img sigma (specKernelRadius sigma) x y)
    else ⟨0, 0, 0, 255⟩⟩

/-- Modelled from the spec (§4.3 DoGCompositor): `difference(A, B)` —
convert both 8-bit pixels back to normalized floats, subtract channel-wise,
map back through the clamping ColorMapper.  (The spec's dimension check is
omitted from the embedding: the pipeline only ever subtracts two blurs of
one source image, which have equal dimensions.) -/
noncomputable def specDifference (imgA imgB : Image) : Image :=
  ⟨imgA.width, imgA.height, fun x y =>
    if x < imgA.width ∧ y < imgA.height then
      vector_to_color (color_to_vector (imgA.pix x y) -
        color_to_vector (imgB.pix x y))
    else ⟨0, 0, 0, 255⟩⟩

/-- Modelled from the spec (§4.3): the two-pass DoG pipeline
`difference(blur(image, k·sigma), blur(image, sigma))`. -/
noncomputable def specDog (img : Image) (sigma k : ℝ) : Image :=
  specDifference (specBlur img (k * sigma)) (specBlur img sigma)

section Lemmas

/-- `clamp` really lands in the interval, provided the interval is nonempty. -/
lemma clamp_mem_Icc (n low high : ℝ) (h : low ≤ high) :
    low ≤ clamp n low high ∧ clamp n low high ≤ high := by
  unfold clamp
  split
  · exact ⟨le_refl _, h⟩
  · split
    · exact ⟨h, le_refl _⟩
    · constructor <;> linarith [not_lt.mp (by assumption : ¬ n < low)]

/-- Each channel produced by `vector_to_color` is at most 255. -/
lemma vector_to_color_channel_le (v : ℝ) : (⌊clamp v 0 1 * 255⌋).toNat ≤ 255 := by
  have h := clamp_mem_Icc v 0 1 (by norm_num)
  have hle : clamp v 0 1 * 255 ≤ 255 := by nlinarith [h.1, h.2]
  have : ⌊clamp v 0 1 * 255⌋ ≤ (255 : ℤ) := by
    have := Int.floor_le_floor hle
    simpa using this
  omega

/-- The truncating cast sends `[0, 1)` to zero. -/
lemma f32_to_i32_eq_zero {x : ℝ} (h0 : 0 ≤ x) (h1 : x < 1) : f32_to_i32 x = 0 := by
  unfold f32_to_i32
  rw [if_pos h0]
  exact Int.floor_eq_zero_iff.mpr ⟨h0, h1⟩

/-- When both squared scales truncate to zero, the window half-extent is 0. -/
lemma dogRadius_eq_zero {sigma k : ℝ} (h1 : sigma * sigma < 1)
    (h2 : (k * sigma) * (k * sigma) < 1) : dogRadius sigma k = 0 := by
  unfold dogRadius
  rw [f32_to_i32_eq_zero (mul_self_nonneg sigma) h1,
    f32_to_i32_eq_zero (mul_self_nonneg (k * sigma)) h2]
  rfl

/-- Mapping the zero vector to a color gives opaque black. -/
lemma vector_to_color_zero : vector_to_color 0 = ⟨0, 0, 0, 255⟩ := by
  unfold vector_to_color clamp
  norm_num

/-- With a zero window half-extent the accumulation loop body never runs and
every pixel of the result is opaque black. -/
lemma dog_pix_black_of_radius_zero (img : Image) (sigma k : ℝ)
    (hr : dogRadius sigma k = 0) (x y : ℕ) :
    (difference_of_gaussian img sigma k).pix x y = ⟨0, 0, 0, 255⟩ := by
  dsimp only [difference_of_gaussian]
  split
  · have hcol : dogColor img sigma k x y = 0 := by
      unfold dogColor
      rw [hr]
      simp
    rw [hcol, vector_to_color_zero]
  · rfl

/-- The kernel weight is antitone in the squared distance from the origin. -/
lemma gaussian_filter_le (sigma x1 y1 x2 y2 : ℝ) (hs : 0 < sigma)
    (h : x1 * x1 + y1 * y1 ≤ x2 * x2 + y2 * y2) :
    gaussian_filter x2 y2 sigma ≤ gaussian_filter x1 y1 sigma := by
  show Real.exp (-(x2 * x2 + y2 * y2) / (2 * sigma * sigma)) /
      (2 * Real.pi * sigma * sigma) ≤
    Real.exp (-(x1 * x1 + y1 * y1) / (2 * sigma * sigma)) /
      (2 * Real.pi * sigma * sigma)
  have hb : (0 : ℝ) < 2 * sigma * sigma := by positivity
  have ha : (0 : ℝ) < 2 * Real.pi * sigma * sigma := by
    have := Real.pi_pos
    positivity
  have hexp : -(x2 * x2 + y2 * y2) / (2 * sigma * sigma) ≤
      -(x1 * x1 + y1 * y1) / (2 * sigma * sigma) :=
    (div_le_div_iff_of_pos_right hb).mpr (by linarith)
  exact (div_le_div_iff_of_pos_right ha).mpr (Real.exp_le_exp.mpr hexp)

/-- Unfolding of the skip condition: the loop keeps offset `(i, j)` exactly
when the neighbour coordinate lies inside the image. -/
lemma outOfBounds_eq_false (img : Image) (x y : ℕ) (i j : ℤ) :
    outOfBounds img x y i j = false ↔
      0 ≤ (x : ℤ) + i ∧ 0 ≤ (y : ℤ) + j ∧ (x : ℤ) + i < img.width ∧
        (y : ℤ) + j < img.height := by
  unfold outOfBounds
  simp only [Bool.or_eq_false_iff, decide_eq_false_iff_not, not_lt, not_le]
  omega

/-- A window sum collapses to its central term when all other terms vanish. -/
lemma window_sum_single {M : Type*} [AddCommMonoid M] (r : ℤ) (hr : 0 < r)
    (f : ℤ → ℤ → M) (hf : ∀ i j : ℤ, ¬(i = 0 ∧ j = 0) → f i j = 0) :
    (∑ i in Finset.Ico (-r) r, ∑ j in Finset.Ico (-r) r, f i j) = f 0 0 := by
  have h0 : (0 : ℤ) ∈ Finset.Ico (-r) r := by
    rw [Finset.mem_Ico]
    omega
  rw [Finset.sum_eq_single_of_mem 0 h0
    (fun i _ hne => Finset.sum_eq_zero fun j _ => hf i j fun hc => hne hc.1)]
  exact Finset.sum_eq_single_of_mem 0 h0 fun j _ hne => hf 0 j fun hc => hne hc.2

/-- The kernel weight at the origin. -/
lemma gaussian_filter_zero_zero (sigma : ℝ) :
    gaussian_filter 0 0 sigma = 1 / (2 * Real.pi * sigma * sigma) := by
  show Real.exp (-((0 : ℝ) * 0 + 0 * 0) / (2 * sigma * sigma)) /
      (2 * Real.pi * sigma * sigma) = _
  norm_num

/-- `clamp` to `[0,1]` saturates high. -/
lemma clamp_eq_one_of_one_lt {n : ℝ} (h : 1 < n) : clamp n 0 1 = 1 := by
  unfold clamp
  rw [if_neg (by linarith), if_pos h]

/-- `clamp` to `[0,1]` of a nonpositive value is zero. -/
lemma clamp_eq_zero_of_nonpos {n : ℝ} (h : n ≤ 0) : clamp n 0 1 = 0 := by
  unfold clamp
  by_cases h1 : n < 0
  · rw [if_pos h1]
  · rw [if_neg h1, if_neg (by linarith : ¬ n > 1)]
    linarith [not_lt.mp h1]

/-- `clamp` to `[0,1]` keeps values below a positive threshold below it. -/
lemma clamp_lt_of_lt {n t : ℝ} (h : n < t) (ht0 : 0 < t) : clamp n 0 1 < t := by
  unfold clamp
  split
  · exact ht0
  · split
    · linarith
    · exact h

/-- `clamp` is the identity inside the interval. -/
lemma clamp_eq_self {n : ℝ} (h0 : 0 ≤ n) (h1 : n ≤ 1) : clamp n 0 1 = n := by
  unfold clamp
  rw [if_neg (not_lt.mpr h0), if_neg (not_lt.mpr h1)]

/-- On a uniform image the accumulated color is the accumulated net weight
times the constant color vector. -/
lemma dogColor_uniform (img : Image) (c : Rgba) (sigma k : ℝ)
    (hu : ∀ a b : ℕ, a < img.width → b < img.height → img.pix a b = c)
    (x y : ℕ) :
    dogColor img sigma k x y = dogWeight img sigma k x y • color_to_vector c := by
  unfold dogColor dogWeight
  rw [Finset.sum_smul]
  refine Finset.sum_congr rfl fun i _ => ?_
  rw [Finset.sum_smul]
  refine Finset.sum_congr rfl fun j _ => ?_
  by_cases hob : outOfBounds img x y i j
  · simp [hob]
  · have hb := (outOfBounds_eq_false img x y i j).mp (by simpa using hob)
    have hx : ((x : ℤ) + i).toNat < img.width := by omega
    have hy : ((y : ℤ) + j).toNat < img.height := by omega
    simp [hob, hu _ _ hx hy]

/-- The color vector of a pure-white pixel. -/
lemma color_to_vector_white :
    color_to_vector ⟨255, 255, 255, 255⟩ = ((1 : ℝ), (1 : ℝ), (1 : ℝ)) := by
  unfold color_to_vector
  norm_num

/-- The window half-extent at `sigma = 1`, `k = 1/10` is 1. -/
lemma dogRadius_one_tenth : dogRadius 1 ((1 : ℝ) / 10) = 1 := by
  unfold dogRadius f32_to_i32
  rw [if_pos (by norm_num), if_pos (by norm_num)]
  rw [show (1 : ℝ) * 1 = 1 by norm_num,
    show ((1 : ℝ) / 10 * 1) * ((1 : ℝ) / 10 * 1) = 1 / 100 by norm_num]
  rw [Int.floor_one, Int.floor_eq_zero_iff.mpr (by constructor <;> norm_num)]
  rfl

/-- The window half-extent at `sigma = 1`, `k = 1/2` is 1. -/
lemma dogRadius_one_half : dogRadius 1 ((1 : ℝ) / 2) = 1 := by
  unfold dogRadius f32_to_i32
  rw [if_pos (by norm_num), if_pos (by norm_num)]
  rw [show (1 : ℝ) * 1 = 1 by norm_num,
    show ((1 : ℝ) / 2 * 1) * ((1 : ℝ) / 2 * 1) = 1 / 4 by norm_num]
  rw [Int.floor_one, Int.floor_eq_zero_iff.mpr (by constructor <;> norm_num)]
  rfl

/-- On the 1×1 white image with window half-extent 1, only the offset
`(0, 0)` survives the bounds check, so the accumulated color is the single
central term. -/
lemma dogColor_unitWhite (sigma k : ℝ) (hr : dogRadius sigma k = 1) :
    dogColor unitWhite sigma k 0 0 =
      (gaussian_filter 0 0 (k * sigma) - gaussian_filter 0 0 sigma) •
        ((1 : ℝ), (1 : ℝ), (1 : ℝ)) := by
  unfold dogColor
  rw [hr]
  rw [window_sum_single 1 one_pos _ ?_]
  · rw [if_neg (by decide : ¬ (outOfBounds unitWhite 0 0 0 0 = true))]
    congr 1
    · norm_num
    · exact color_to_vector_white
  · intro i j hij
    have hob : outOfBounds unitWhite 0 0 i j = true := by
      simp only [outOfBounds, unitWhite, Bool.or_eq_true, decide_eq_true_eq]
      omega
    simp [hob]

/-- A color vector with all channels nonpositive maps to opaque black. -/
lemma vector_to_color_nonpos (v : ℝ × ℝ × ℝ)
    (h1 : v.1 ≤ 0) (h2 : v.2.1 ≤ 0) (h3 : v.2.2 ≤ 0) :
    vector_to_color v = ⟨0, 0, 0, 255⟩ := by
  unfold vector_to_color
  rw [clamp_eq_zero_of_nonpos h1, clamp_eq_zero_of_nonpos h2,
    clamp_eq_zero_of_nonpos h3]
  norm_num

/-- A nonpositive weight times a normalized channel is nonpositive. -/
lemma mul_div255_nonpos (W : ℝ) (hW : W ≤ 0) (m : ℕ) : W * ((m : ℝ) / 255) ≤ 0 := by
  have hm : (0 : ℝ) ≤ (m : ℝ) / 255 := by positivity
  nlinarith [mul_nonneg (neg_nonneg.mpr hW) hm]

/-- Mapping a scalar multiple of the unit color vector to 8-bit. -/
lemma vector_to_color_smul_const (s : ℝ) :
    vector_to_color (s • ((1 : ℝ), (1 : ℝ), (1 : ℝ))) =
      ⟨(⌊clamp s 0 1 * 255⌋).toNat, (⌊clamp s 0 1 * 255⌋).toNat,
       (⌊clamp s 0 1 * 255⌋).toNat, 255⟩ := by
  have h : s • ((1 : ℝ), (1 : ℝ), (1 : ℝ)) = ((s * 1 : ℝ), (s * 1 : ℝ), (s * 1 : ℝ)) := rfl
  rw [h]
  simp only [mul_one]
  rfl

/-- On the 1×1 white image any positive window half-extent keeps only the
central offset in the single-Gaussian accumulation. -/
lemma blurAccum_unitWhite (sigma : ℝ) (r : ℤ) (hr : 0 < r) :
    blurAccum unitWhite sigma r 0 0 =
      gaussian_filter 0 0 sigma • ((1 : ℝ), (1 : ℝ), (1 : ℝ)) := by
  unfold blurAccum
  rw [window_sum_single r hr _ ?_]
  · rw [if_neg (by decide : ¬ (outOfBounds unitWhite 0 0 0 0 = true))]
    congr 1
    · norm_num
    · exact color_to_vector_white
  · intro i j hij
    have hob : outOfBounds unitWhite 0 0 i j = true := by
      simp only [outOfBounds, unitWhite, Bool.or_eq_true, decide_eq_true_eq]
      omega
    simp [hob]

/-- The spec's radius policy at the small scale `(1/10)·1`. -/
lemma specKernelRadius_tenth : specKernelRadius ((1 : ℝ) / 10 * 1) = 1 := by
  unfold specKernelRadius
  rw [show (3 : ℝ) * ((1 : ℝ) / 10 * 1) = 3 / 10 by norm_num, Int.ceil_eq_iff]
  constructor <;> norm_num

/-- The spec's radius policy at scale 1. -/
lemma specKernelRadius_one : specKernelRadius 1 = 3 := by
  unfold specKernelRadius
  rw [show (3 : ℝ) * 1 = 3 by norm_num, Int.ceil_eq_iff]
  constructor <;> norm_num

/-- Full evaluation of the source DoG on the 1×1 white image at `sigma = 1`,
`k = 1/10`: the red channel saturates at 255 (the central net weight is
`99/(2π) ≈ 15.76 > 1`). -/
lemma dog_unitWhite_tenth_r :
    ((difference_of_gaussian unitWhite 1 ((1 : ℝ) / 10)).pix 0 0).r = 255 := by
  have hpix : (difference_of_gaussian unitWhite 1 ((1 : ℝ) / 10)).pix 0 0 =
      vector_to_color (dogColor unitWhite 1 ((1 : ℝ) / 10) 0 0) := by
    dsimp only [difference_of_gaussian]
    rw [if_pos ⟨by decide, by decide⟩]
  rw [hpix, dogColor_unitWhite 1 ((1 : ℝ) / 10) dogRadius_one_tenth]
  have hW : gaussian_filter 0 0 ((1 : ℝ) / 10 * 1) - gaussian_filter 0 0 1 =
      99 / (2 * Real.pi) := by
    rw [show ((1 : ℝ) / 10 * 1) = 1 / 10 by norm_num]
    rw [gaussian_filter_zero_zero, gaussian_filter_zero_zero]
    have hpi : Real.pi ≠ 0 := Real.pi_ne_zero
    field_simp
    ring
  rw [hW, vector_to_color_smul_const]
  have h1lt : (1 : ℝ) < 99 / (2 * Real.pi) := by
    rw [lt_div_iff₀ (by positivity)]
    nlinarith [Real.pi_lt_d2]
  rw [clamp_eq_one_of_one_lt h1lt, one_mul,
    show ((255 : ℝ)) = ((255 : ℕ) : ℝ) by norm_num, Int.floor_natCast]
  rfl

/-- The spec blur at the narrow scale saturates the 1×1 white image. -/
lemma specBlur_unitWhite_tenth :
    (specBlur unitWhite ((1 : ℝ) / 10 * 1)).pix 0 0 = ⟨255, 255, 255, 255⟩ := by
  dsimp only [specBlur]
  rw [if_pos ⟨by decide, by decide⟩, specKernelRadius_tenth,
    blurAccum_unitWhite ((1 : ℝ) / 10 * 1) 1 one_pos, vector_to_color_smul_const]
  have h1 : (1 : ℝ) < gaussian_filter 0 0 ((1 : ℝ) / 10 * 1) := by
    rw [show ((1 : ℝ) / 10 * 1) = 1 / 10 by norm_num, gaussian_filter_zero_zero,
      show (2 : ℝ) * Real.pi * (1 / 10) * (1 / 10) = Real.pi / 50 by ring,
      lt_div_iff₀ (by positivity : (0 : ℝ) < Real.pi / 50)]
    nlinarith [Real.pi_lt_d2]
  rw [clamp_eq_one_of_one_lt h1, one_mul,
    show ((255 : ℝ)) = ((255 : ℕ) : ℝ) by norm_num, Int.floor_natCast]
  rfl

/-- The spec blur at scale 1 sends the 1×1 white image to channel value 40
(`⌊255/(2π)⌋ = 40`). -/
lemma specBlur_unitWhite_one :
    (specBlur unitWhite 1).pix 0 0 = ⟨40, 40, 40, 255⟩ := by
  dsimp only [specBlur]
  rw [if_pos ⟨by decide, by decide⟩, specKernelRadius_one,
    blurAccum_unitWhite 1 3 (by norm_num), vector_to_color_smul_const,
    gaussian_filter_zero_zero,
    show (2 : ℝ) * Real.pi * 1 * 1 = 2 * Real.pi by ring]
  have h0 : (0 : ℝ) ≤ 1 / (2 * Real.pi) := by positivity
  have h1 : 1 / (2 * Real.pi) ≤ 1 := by
    rw [div_le_one (by positivity)]
    nlinarith [Real.pi_gt_d2]
  rw [clamp_eq_self h0 h1]
  have hfloor : ⌊1 / (2 * Real.pi) * 255⌋ = (40 : ℤ) := by
    rw [Int.floor_eq_iff, show (1 : ℝ) / (2 * Real.pi) * 255 = 255 / (2 * Real.pi) by ring]
    constructor
    · rw [le_div_iff₀ (by positivity)]
      push_cast
      nlinarith [Real.pi_lt_d2]
    · rw [div_lt_iff₀ (by positivity)]
      push_cast
      nlinarith [Real.pi_gt_d2]
  rw [hfloor]
  rfl

/-- Full evaluation of the spec's two-pass DoG on the 1×1 white image at
`sigma = 1`, `k = 1/10`: the red channel is `255 - 40 = 215`. -/
lemma specDog_unitWhite_tenth_r :
    ((specDog unitWhite 1 ((1 : ℝ) / 10)).pix 0 0).r = 215 := by
  dsimp only [specDog, specDifference]
  rw [if_pos ⟨by decide, by decide⟩, specBlur_unitWhite_tenth, specBlur_unitWhite_one]
  have hsub : color_to_vector ⟨255, 255, 255, 255⟩ - color_to_vector ⟨40, 40, 40, 255⟩ =
      (((215 : ℝ) / 255), ((215 : ℝ) / 255), ((215 : ℝ) / 255)) := by
    unfold color_to_vector
    rw [Prod.mk_sub_mk, Prod.mk_sub_mk]
    norm_num
  rw [hsub]
  show (⌊clamp ((215 : ℝ) / 255) 0 1 * 255⌋).toNat = 215
  rw [clamp_eq_self (by norm_num) (by norm_num),
    show ((215 : ℝ) / 255) * 255 = ((215 : ℕ) : ℝ) by norm_num, Int.floor_natCast]
  rfl

end Lemmas

/-- Claim C5: the image produced by `difference_of_gaussian` has exactly the
width and height of its source image (for every `sigma` and `k`, in
particular all positive ones). -/
theorem dog_preserves_dimensions (img : Image) (sigma k : ℝ) :
    (difference_of_gaussian img sigma k).width = img.width ∧
      (difference_of_gaussian img sigma k).height = img.height :=
  ⟨rfl, rfl⟩

/-- Claim C7: at every integer offset `(dx, dy)` and every `sigma`, the
kernel weight computed by `gaussian_filter` equals
`exp(-(dx² + dy²) / (2·sigma²)) / (2·π·sigma²)` exactly. -/
theorem gaussian_filter_formula (dx dy : ℤ) (sigma : ℝ) :
    gaussian_filter (dx : ℝ) (dy : ℝ) sigma =
      Real.exp (-((dx : ℝ) ^ 2 + (dy : ℝ) ^ 2) / (2 * sigma ^ 2)) /
        (2 * Real.pi * sigma ^ 2) := by
  show Real.exp (-((dx : ℝ) * dx + (dy : ℝ) * dy) / (2 * sigma * sigma)) /
      (2 * Real.pi * sigma * sigma) = _
  have harg : -((dx : ℝ) * dx + dy * dy) / (2 * sigma * sigma) =
      -((dx : ℝ) ^ 2 + (dy : ℝ) ^ 2) / (2 * sigma ^ 2) := by ring
  rw [harg]
  ring

/-- Claim C4: every channel of every pixel of the image produced by the core
is in `[0, 255]` (lower bound: channels are naturals), with a fully opaque
alpha; the clamp to `[0,1]` before the 8-bit conversion makes wraparound
impossible. -/
theorem dog_pixel_channels_in_range (img : Image) (sigma k : ℝ) (x y : ℕ) :
    ((difference_of_gaussian img sigma k).pix x y).r ≤ 255 ∧
      ((difference_of_gaussian img sigma k).pix x y).g ≤ 255 ∧
      ((difference_of_gaussian img sigma k).pix x y).b ≤ 255 ∧
      ((difference_of_gaussian img sigma k).pix x y).a = 255 := by
  dsimp only [difference_of_gaussian]
  split
  · exact ⟨vector_to_color_channel_le _, vector_to_color_channel_le _,
      vector_to_color_channel_le _, rfl⟩
  · exact ⟨by norm_num, by norm_num, by norm_num, rfl⟩

/-- Claim C8: the ColorMapper round trip is exact on in-range pixels: for a
pixel whose channels are at most 255, `vector_to_color (color_to_vector p)`
returns the very same RGB channels (deviation 0, within the claimed
tolerance of 1) and sets the alpha channel to 255. -/
theorem color_roundtrip_exact (p : Rgba)
    (hr : p.r ≤ 255) (hg : p.g ≤ 255) (hb : p.b ≤ 255) :
    vector_to_color (color_to_vector p) = ⟨p.r, p.g, p.b, 255⟩ := by
  have key : ∀ c : ℕ, c ≤ 255 → (⌊clamp ((c : ℝ) / 255) 0 1 * 255⌋).toNat = c := by
    intro c hc
    have h0 : ¬ ((c : ℝ) / 255 < 0) := by
      rw [not_lt]
      positivity
    have h1 : ¬ ((c : ℝ) / 255 > 1) := by
      rw [not_lt]
      rw [div_le_one (by norm_num)]
      exact_mod_cast hc
    have hcl : clamp ((c : ℝ) / 255) 0 1 = (c : ℝ) / 255 := by
      unfold clamp
      rw [if_neg h0, if_neg h1]
    rw [hcl, div_mul_cancel₀ _ (by norm_num : (255 : ℝ) ≠ 0)]
    rw [Int.floor_natCast, Int.toNat_natCast]
  unfold vector_to_color color_to_vector
  simp only
  rw [key p.r hr, key p.g hg, key p.b hb]

/-- Witness for C8 at the concrete pixel `(17, 200, 255, 3)`. -/
theorem color_roundtrip_exact_witness :
    17 ≤ 255 ∧ 200 ≤ 255 ∧ 255 ≤ 255 ∧
      vector_to_color (color_to_vector ⟨17, 200, 255, 3⟩) = ⟨17, 200, 255, 255⟩ :=
  ⟨by norm_num, by norm_num, by norm_num,
    color_roundtrip_exact ⟨17, 200, 255, 3⟩ (by norm_num) (by norm_num) (by norm_num)⟩



/-- Claim C1 (code_bug evidence): calling `difference_of_gaussian` with
`sigma = 0` does NOT fail — the source has no parameter validation and no
error path at all.  The window half-extent `max((0)² as i32, (k·0)² as i32)`
is 0, the accumulation loop body never runs (so, in particular, the
division-by-zero inside `gaussian_filter` is never even evaluated and no
NaN/Inf arises), and the call silently returns an all-black image of the
input's dimensions. -/
theorem dog_sigma_zero_silently_black (img : Image) (k : ℝ) (x y : ℕ) :
    (difference_of_gaussian img 0 k).pix x y = ⟨0, 0, 0, 255⟩ :=
  dog_pix_black_of_radius_zero img 0 k
    (dogRadius_eq_zero (by norm_num) (by norm_num)) x y

/-- Claim C10: whenever `sigma² < 1` and `(k·sigma)² < 1`, the derived
integer window half-extent is 0, the accumulation window is empty, and the
returned image is entirely opaque black `(0, 0, 0, 255)` regardless of the
input image's content. -/
theorem dog_small_sigma_all_black (img : Image) (sigma k : ℝ)
    (h1 : sigma * sigma < 1) (h2 : (k * sigma) * (k * sigma) < 1) (x y : ℕ) :
    (difference_of_gaussian img sigma k).pix x y = ⟨0, 0, 0, 255⟩ :=
  dog_pix_black_of_radius_zero img sigma k (dogRadius_eq_zero h1 h2) x y

/-- Witness for C10: `sigma = 1/2`, `k = 1` on the (white!) 1×1 test image
still comes out black. -/
theorem dog_small_sigma_all_black_witness :
    ((1 : ℝ) / 2) * ((1 : ℝ) / 2) < 1 ∧
      ((1 : ℝ) * ((1 : ℝ) / 2)) * ((1 : ℝ) * ((1 : ℝ) / 2)) < 1 ∧
      (difference_of_gaussian unitWhite ((1 : ℝ) / 2) 1).pix 0 0 = ⟨0, 0, 0, 255⟩ :=
  ⟨by norm_num, by norm_num,
    dog_small_sigma_all_black unitWhite ((1 : ℝ) / 2) 1 (by norm_num) (by norm_num) 0 0⟩

/-- Claim C9: for fixed `sigma > 0` the kernel weight is maximal at the
origin, and it is monotonically decreasing in the squared distance
`dx² + dy²` over all integer offsets. -/
theorem gaussian_filter_max_and_mono (sigma : ℝ) (hs : 0 < sigma) :
    (∀ dx dy : ℤ, gaussian_filter (dx : ℝ) (dy : ℝ) sigma ≤
        gaussian_filter ((0 : ℤ) : ℝ) ((0 : ℤ) : ℝ) sigma) ∧
    (∀ p q u v : ℤ, p ^ 2 + q ^ 2 ≤ u ^ 2 + v ^ 2 →
        gaussian_filter (u : ℝ) (v : ℝ) sigma ≤
          gaussian_filter (p : ℝ) (q : ℝ) sigma) := by
  have mono : ∀ p q u v : ℤ, p ^ 2 + q ^ 2 ≤ u ^ 2 + v ^ 2 →
      gaussian_filter (u : ℝ) (v : ℝ) sigma ≤
        gaussian_filter (p : ℝ) (q : ℝ) sigma := by
    intro p q u v h
    apply gaussian_filter_le sigma _ _ _ _ hs
    have hcast : ((p ^ 2 + q ^ 2 : ℤ) : ℝ) ≤ ((u ^ 2 + v ^ 2 : ℤ) : ℝ) :=
      Int.cast_le.mpr h
    push_cast at hcast
    nlinarith [hcast]
  refine ⟨fun dx dy => ?_, mono⟩
  have := mono 0 0 dx dy (by positivity)
  simpa using this

/-- Witness for C9 at `sigma = 1`, comparing offset `(1, 2)` against the
origin and the monotonicity instance `(1, 0) vs (2, 2)`. -/
theorem gaussian_filter_max_and_mono_witness :
    (0 : ℝ) < 1 ∧
      gaussian_filter ((1 : ℤ) : ℝ) ((2 : ℤ) : ℝ) 1 ≤
        gaussian_filter ((0 : ℤ) : ℝ) ((0 : ℤ) : ℝ) 1 ∧
      gaussian_filter ((2 : ℤ) : ℝ) ((2 : ℤ) : ℝ) 1 ≤
        gaussian_filter ((1 : ℤ) : ℝ) ((0 : ℤ) : ℝ) 1 :=
  ⟨by norm_num,
    (gaussian_filter_max_and_mono 1 (by norm_num)).1 1 2,
    (gaussian_filter_max_and_mono 1 (by norm_num)).2 1 0 2 2 (by norm_num)⟩
/-- Claim C2 (amended): on a uniform-color input image, every pixel whose
net accumulated difference-of-weights is nonpositive maps to the zero pixel
`(0, 0, 0, 255)`.  As originally stated the claim is false: the truncated,
unnormalized window can leave a large positive net weight (see the
counterexample at `sigma = 1`, `k = 1/10`, where a uniform white image
stays at channel value 255). -/
theorem dog_uniform_nonpos_weight_black (img : Image) (c : Rgba) (sigma k : ℝ)
    (hs : 0 < sigma) (hk : 0 < k)
    (hu : ∀ a b : ℕ, a < img.width → b < img.height → img.pix a b = c)
    (x y : ℕ) (hW : dogWeight img sigma k x y ≤ 0) :
    (difference_of_gaussian img sigma k).pix x y = ⟨0, 0, 0, 255⟩ := by
  dsimp only [difference_of_gaussian]
  split
  · rw [dogColor_uniform img c sigma k hu x y]
    apply vector_to_color_nonpos
    · show dogWeight img sigma k x y * ((c.r : ℝ) / 255) ≤ 0
      exact mul_div255_nonpos _ hW c.r
    · show dogWeight img sigma k x y * ((c.g : ℝ) / 255) ≤ 0
      exact mul_div255_nonpos _ hW c.g
    · show dogWeight img sigma k x y * ((c.b : ℝ) / 255) ≤ 0
      exact mul_div255_nonpos _ hW c.b
  · rfl

/-- Witness for the amended C2 at `sigma = 1`, `k = 1` on the white 1×1
image: the two Gaussians coincide, the net weight is 0, the pixel is black. -/
theorem dog_uniform_nonpos_weight_black_witness :
    (0 : ℝ) < 1 ∧ dogWeight unitWhite 1 1 0 0 ≤ 0 ∧
      (difference_of_gaussian unitWhite 1 1).pix 0 0 = ⟨0, 0, 0, 255⟩ := by
  have hW : dogWeight unitWhite 1 1 0 0 = 0 := by
    unfold dogWeight
    refine Finset.sum_eq_zero fun i _ => Finset.sum_eq_zero fun j _ => ?_
    split
    · rfl
    · rw [one_mul, sub_self]
  exact ⟨by norm_num, le_of_eq hW,
    dog_uniform_nonpos_weight_black unitWhite ⟨255, 255, 255, 255⟩ 1 1
      (by norm_num) (by norm_num) (fun _ _ _ _ => rfl) 0 0 (le_of_eq hW)⟩

/-- Counterexample to Claim C2 as stated: on the uniform white 1×1 image
with `sigma = 1 > 0` and `k = 1/10 > 0`, the output pixel's red channel is
255, far beyond the claimed tolerance of 1 around the zero value.  (The
central weight `1/(2·π·(1/10)²) - 1/(2·π)` = `99/(2π) ≈ 15.76` saturates the
clamp.) -/
theorem dog_uniform_white_not_near_zero_cex :
    1 < ((difference_of_gaussian unitWhite 1 ((1 : ℝ) / 10)).pix 0 0).r := by
  rw [dog_unitWhite_tenth_r]
  norm_num

/-- Claim C3 (amended): the source's single-pass DoG equals the clamped
8-bit image of the difference of the two RAW (unquantized) Gaussian
accumulations, both taken over the SHARED window half-extent
`max(⌊sigma²⌋, ⌊(k·sigma)²⌋)`.  As originally stated — with each blur using
its own correctly sized window and each pass quantized to 8-bit before the
subtraction — the claim is false (see the counterexample). -/
theorem dog_eq_raw_blur_difference (img : Image) (sigma k : ℝ) (x y : ℕ)
    (hx : x < img.width) (hy : y < img.height) :
    (difference_of_gaussian img sigma k).pix x y =
      vector_to_color (blurAccum img (k * sigma) (dogRadius sigma k) x y -
        blurAccum img sigma (dogRadius sigma k) x y) := by
  dsimp only [difference_of_gaussian]
  rw [if_pos ⟨hx, hy⟩]
  congr 1
  unfold dogColor blurAccum
  rw [← Finset.sum_sub_distrib]
  refine Finset.sum_congr rfl fun i _ => ?_
  rw [← Finset.sum_sub_distrib]
  refine Finset.sum_congr rfl fun j _ => ?_
  by_cases hob : outOfBounds img x y i j
  · simp [hob]
  · simp [hob, sub_smul]

/-- Witness for the amended C3 on the 1×1 white image at `sigma = k = 1`. -/
theorem dog_eq_raw_blur_difference_witness :
    (0 < unitWhite.width ∧ 0 < unitWhite.height) ∧
      (difference_of_gaussian unitWhite 1 1).pix 0 0 =
        vector_to_color (blurAccum unitWhite (1 * 1) (dogRadius 1 1) 0 0 -
          blurAccum unitWhite 1 (dogRadius 1 1) 0 0) :=
  ⟨⟨by decide, by decide⟩,
    dog_eq_raw_blur_difference unitWhite 1 1 0 0 (by decide) (by decide)⟩

/-- Counterexample to Claim C3 as stated: on the 1×1 white image with
`sigma = 1`, `k = 1/10`, the source's single-pass DoG yields red channel 255
while the spec's two-pass `difference(blur(image, k·sigma), blur(image, sigma))`
(each blur on its own window `ceil(3·sigma)`, quantized per pass) yields
`255 - 40 = 215`. -/
theorem dog_ne_spec_two_pass_cex :
    (difference_of_gaussian unitWhite 1 ((1 : ℝ) / 10)).pix 0 0 ≠
      (specDog unitWhite 1 ((1 : ℝ) / 10)).pix 0 0 := by
  intro h
  have hr := congrArg Rgba.r h
  rw [dog_unitWhite_tenth_r, specDog_unitWhite_tenth_r] at hr
  exact absurd hr (by norm_num)

section EdgeLemmas

/-- Unfolded form of the kernel weight (the two `let`s of the source
zeta-reduced). -/
lemma gaussian_filter_eval (x y s : ℝ) :
    gaussian_filter x y s =
      Real.exp (-(x * x + y * y) / (2 * s * s)) / (2 * Real.pi * s * s) := rfl

/-- The window of half-extent 1 explicitly. -/
lemma Ico_neg_one_one : Finset.Ico (-1 : ℤ) 1 = {-1, 0} := by decide

/-- A window sum collapses to its central term when all other terms inside
the window vanish. -/
lemma window_sum_single_mem {M : Type*} [AddCommMonoid M] (r : ℤ) (hr : 0 < r)
    (f : ℤ → ℤ → M)
    (hf : ∀ i j : ℤ, -r ≤ i → i < r → -r ≤ j → j < r → ¬(i = 0 ∧ j = 0) →
      f i j = 0) :
    (∑ i in Finset.Ico (-r) r, ∑ j in Finset.Ico (-r) r, f i j) = f 0 0 := by
  have h0 : (0 : ℤ) ∈ Finset.Ico (-r) r := by
    rw [Finset.mem_Ico]
    omega
  rw [Finset.sum_eq_single_of_mem 0 h0
    (fun i hi hne => Finset.sum_eq_zero fun j hj =>
      hf i j (Finset.mem_Ico.mp hi).1 (Finset.mem_Ico.mp hi).2
        (Finset.mem_Ico.mp hj).1 (Finset.mem_Ico.mp hj).2 fun hc => hne hc.1)]
  exact Finset.sum_eq_single_of_mem 0 h0 fun j hj hne =>
    hf 0 j (by omega) (by omega) (Finset.mem_Ico.mp hj).1
      (Finset.mem_Ico.mp hj).2 fun hc => hne hc.2

/-- Numeric bound: `exp (-2) < 0.1354`. -/
lemma exp_neg_two_lt : Real.exp (-2) < 0.1354 := by
  have h : Real.exp (-2) = Real.exp (-1) * Real.exp (-1) := by
    rw [← Real.exp_add]
    norm_num
  have hp := (Real.exp_pos (-1)).le
  have hmul := mul_lt_mul'' Real.exp_neg_one_lt_d9 Real.exp_neg_one_lt_d9 hp hp
  rw [h]
  linarith [hmul, show (0.3678794412 : ℝ) * 0.3678794412 < 0.1354 by norm_num]

/-- Numeric bound: `exp (-4) < 0.0184`. -/
lemma exp_neg_four_lt : Real.exp (-4) < 0.0184 := by
  have h : Real.exp (-4) = Real.exp (-2) * Real.exp (-2) := by
    rw [← Real.exp_add]
    norm_num
  have hp := (Real.exp_pos (-2)).le
  have hmul := mul_lt_mul'' exp_neg_two_lt exp_neg_two_lt hp hp
  rw [h]
  linarith [hmul, show (0.1354 : ℝ) * 0.1354 < 0.0184 by norm_num]

/-- Numeric bound: `0.6065 < exp (-(1/2))`. -/
lemma exp_neg_half_gt : (0.6065 : ℝ) < Real.exp (-(1 / 2) : ℝ) := by
  have h : Real.exp (-(1 / 2) : ℝ) * Real.exp (-(1 / 2) : ℝ) = Real.exp (-1) := by
    rw [← Real.exp_add]
    norm_num
  have hp := Real.exp_pos (-(1 / 2) : ℝ)
  nlinarith [Real.exp_neg_one_gt_d9, h, hp]

/-- The uniform 3×3 white image is uniform. -/
lemma white3_uniform : ∀ a b : ℕ, a < white3.width → b < white3.height →
    white3.pix a b = ⟨255, 255, 255, 255⟩ := fun _ _ _ _ => rfl

/-- Net weight at the corner `(0,0)` of the 3×3 white image with `sigma = 1`,
`k = 1/2`: only the central offset is in bounds, giving `3/(2π)`. -/
lemma dogWeight_white3_corner :
    dogWeight white3 1 ((1 : ℝ) / 2) 0 0 = 3 / (2 * Real.pi) := by
  unfold dogWeight
  rw [dogRadius_one_half]
  rw [window_sum_single_mem 1 one_pos _ ?_]
  · rw [if_neg (by decide : ¬ (outOfBounds white3 0 0 0 0 = true))]
    rw [show (((0 : ℤ) : ℝ)) = (0 : ℝ) by norm_num]
    rw [gaussian_filter_zero_zero, gaussian_filter_zero_zero]
    have hpi : Real.pi ≠ 0 := Real.pi_ne_zero
    field_simp
    ring
  · intro i j h1 h2 h3 h4 hne
    have hob : outOfBounds white3 0 0 i j = true := by
      simp only [outOfBounds, white3, Bool.or_eq_true, decide_eq_true_eq]
      omega
    simp [hob]

/-- Net weight at the center `(1,1)` of the 3×3 white image with `sigma = 1`,
`k = 1/2`: all four window offsets are in bounds. -/
lemma dogWeight_white3_center :
    dogWeight white3 1 ((1 : ℝ) / 2) 1 1 =
      (3 + 8 * Real.exp (-2) - 2 * Real.exp (-(1 / 2) : ℝ) + 4 * Real.exp (-4) -
        Real.exp (-1)) / (2 * Real.pi) := by
  unfold dogWeight
  rw [dogRadius_one_half, Ico_neg_one_one]
  rw [Finset.sum_pair (by decide : (-1 : ℤ) ≠ 0),
    Finset.sum_pair (by decide : (-1 : ℤ) ≠ 0),
    Finset.sum_pair (by decide : (-1 : ℤ) ≠ 0)]
  rw [if_neg (by decide : ¬ (outOfBounds white3 1 1 (-1) (-1) = true)),
    if_neg (by decide : ¬ (outOfBounds white3 1 1 (-1) 0 = true)),
    if_neg (by decide : ¬ (outOfBounds white3 1 1 0 (-1) = true)),
    if_neg (by decide : ¬ (outOfBounds white3 1 1 0 0 = true))]
  simp only [gaussian_filter_eval]
  push_cast
  norm_num
  have hpi : Real.pi ≠ 0 := Real.pi_ne_zero
  field_simp
  ring

end EdgeLemmas

/-- The center weight is below the clamp threshold `7/17 = 105/255`. -/
lemma dogWeight_white3_center_lt :
    dogWeight white3 1 ((1 : ℝ) / 2) 1 1 < 7 / 17 := by
  rw [dogWeight_white3_center, div_lt_iff₀ (by positivity)]
  nlinarith [exp_neg_two_lt, exp_neg_four_lt, exp_neg_half_gt,
    Real.exp_neg_one_gt_d9, Real.pi_gt_d2, (Real.exp_pos (-2)).le,
    (Real.exp_pos (-4)).le]

/-- Pixel values of the DoG of the 3×3 white image, in terms of the net
accumulated weight. -/
lemma dog_white3_pix (x y : ℕ) (hx : x < 3) (hy : y < 3) :
    (difference_of_gaussian white3 1 ((1 : ℝ) / 2)).pix x y =
      ⟨(⌊clamp (dogWeight white3 1 ((1 : ℝ) / 2) x y) 0 1 * 255⌋).toNat,
       (⌊clamp (dogWeight white3 1 ((1 : ℝ) / 2) x y) 0 1 * 255⌋).toNat,
       (⌊clamp (dogWeight white3 1 ((1 : ℝ) / 2) x y) 0 1 * 255⌋).toNat,
       255⟩ := by
  dsimp only [difference_of_gaussian]
  rw [if_pos ⟨hx, hy⟩]
  rw [dogColor_uniform white3 ⟨255, 255, 255, 255⟩ 1 ((1 : ℝ) / 2)
    (fun _ _ _ _ => rfl) x y]
  rw [color_to_vector_white, vector_to_color_smul_const]

/-- Claim C6 (amended): for every in-range output pixel `(x, y)` the result
is the clamped 8-bit image of the sum, over exactly the in-bounds subset of
the integer window `[-radius, radius) × [-radius, radius)`, of
`(weight(i,j,k·sigma) - weight(i,j,sigma)) · color(x+i, y+j)` — out-of-bounds
neighbours contribute nothing (zero padding) and the kernel sum is NOT
renormalized.  The original claim's final consequence ("edge pixels receive
systematically dimmer output") is false for this signed DoG kernel: see the
counterexample, where a corner pixel is strictly brighter than the interior
pixel. -/
theorem dog_pixel_zero_padding_no_renorm (img : Image) (sigma k : ℝ) (x y : ℕ)
    (hx : x < img.width) (hy : y < img.height) :
    (difference_of_gaussian img sigma k).pix x y =
      vector_to_color
        (∑ p in contributingOffsets img x y (dogRadius sigma k),
          (gaussian_filter (p.1 : ℝ) (p.2 : ℝ) (k * sigma) -
              gaussian_filter (p.1 : ℝ) (p.2 : ℝ) sigma) •
            color_to_vector (img.pix ((x : ℤ) + p.1).toNat ((y : ℤ) + p.2).toNat)) := by
  dsimp only [difference_of_gaussian]
  rw [if_pos ⟨hx, hy⟩]
  congr 1
  unfold dogColor contributingOffsets
  rw [Finset.sum_filter, Finset.sum_product]
  refine Finset.sum_congr rfl fun i _ => ?_
  refine Finset.sum_congr rfl fun j _ => ?_
  by_cases hob : outOfBounds img x y i j
  · simp [hob]
  · simp [hob]

/-- Witness for the amended C6 at the center of the 3×3 white image,
`sigma = 1`, `k = 2`. -/
theorem dog_pixel_zero_padding_no_renorm_witness :
    (1 < white3.width ∧ 1 < white3.height) ∧
      (difference_of_gaussian white3 1 2).pix 1 1 =
        vector_to_color
          (∑ p in contributingOffsets white3 1 1 (dogRadius 1 2),
            (gaussian_filter (p.1 : ℝ) (p.2 : ℝ) (2 * 1) -
                gaussian_filter (p.1 : ℝ) (p.2 : ℝ) 1) •
              color_to_vector (white3.pix ((1 : ℤ) + p.1).toNat ((1 : ℤ) + p.2).toNat)) :=
  ⟨⟨by decide, by decide⟩,
    dog_pixel_zero_padding_no_renorm white3 1 2 1 1 (by decide) (by decide)⟩

/-- Counterexample to the final clause of Claim C6 as stated: on the 3×3
white image with `sigma = 1`, `k = 1/2`, the interior (center) pixel's red
channel is strictly SMALLER than the corner (edge) pixel's red channel — the
edge pixel is brighter, not dimmer.  (Corner: `⌊255·3/(2π)⌋ = 121`; center:
at most 104, because the three distinct in-bounds neighbour weights of the
signed DoG kernel are negative.) -/
theorem dog_edge_brighter_than_interior_cex :
    ((difference_of_gaussian white3 1 ((1 : ℝ) / 2)).pix 1 1).r <
      ((difference_of_gaussian white3 1 ((1 : ℝ) / 2)).pix 0 0).r := by
  rw [dog_white3_pix 1 1 (by norm_num) (by norm_num),
    dog_white3_pix 0 0 (by norm_num) (by norm_num)]
  show (⌊clamp (dogWeight white3 1 ((1 : ℝ) / 2) 1 1) 0 1 * 255⌋).toNat <
    (⌊clamp (dogWeight white3 1 ((1 : ℝ) / 2) 0 0) 0 1 * 255⌋).toNat
  rw [dogWeight_white3_corner]
  have hc : clamp (3 / (2 * Real.pi)) 0 1 = 3 / (2 * Real.pi) := by
    apply clamp_eq_self (by positivity)
    rw [div_le_one (by positivity)]
    nlinarith [Real.pi_gt_d2]
  rw [hc]
  have hcorner : (110 : ℤ) ≤ ⌊3 / (2 * Real.pi) * 255⌋ := by
    apply Int.le_floor.mpr
    rw [show (3 : ℝ) / (2 * Real.pi) * 255 = 765 / (2 * Real.pi) by ring,
      le_div_iff₀ (by positivity)]
    push_cast
    nlinarith [Real.pi_lt_d2]
  have hcenter : ⌊clamp (dogWeight white3 1 ((1 : ℝ) / 2) 1 1) 0 1 * 255⌋ < 105 := by
    apply Int.floor_lt.mpr
    have h1 := clamp_lt_of_lt dogWeight_white3_center_lt (by norm_num : (0 : ℝ) < 7 / 17)
    push_cast
    nlinarith [h1]
  omega

end SIFT
